import Mathlib

/-!
# Verification of the edit-application engine of `aicr`

Shallow embedding of `RefactorEngine::applyFixes` (src/refactor/RefactorEngine.cpp),
of the weak-variable-name callback of the C++ analyzer (src/analyzers/CppAnalyzer.cpp)
and of `HeuristicAi::suggestIdentifier` (src/ai/AiEngine.cpp).

Modelling conventions.
* A `std::string` is a list of `Char`, one `Char` per C++ `char` (byte); `size()` is the
  length of the list.
* `unsigned` values are natural numbers; the one arithmetic operation the engine performs
  on them, `f.offset + f.length`, is reduced modulo `2^32`.
* The file system resolves every path string to the file it names (`canon`); two paths
  with the same image name one file (`a.cpp` and `./a.cpp`, links). A file that cannot
  be opened for reading has no content; whether a file can be opened for writing is a flag
  of the file system. A stream that was opened writes its whole buffer.
* `std::sort` and the iteration order of `std::unordered_map` are fixed by the standard
  only up to a contract; the engine is parameterised by an implementation `StdLib` that
  meets the contract.
-/

namespace aicr

/-- Byte strings: the model of `std::string`. -/
abbrev Bytes := List Char

/-- The model of `struct FixIt` (include/analyzers/Issue.hpp). -/
structure FixIt where
  file : String
  offset : Nat
  length : Nat
  replacement : Bytes
  note : String
deriving DecidableEq, Repr

/-- Both `unsigned` fields of a `FixIt` fit in 32 bits. -/
def FixIt.fits32 (f : FixIt) : Prop := f.offset < 2 ^ 32 ∧ f.length < 2 ^ 32

instance (f : FixIt) : Decidable f.fits32 := by
  unfold FixIt.fits32; infer_instance

/-! ## File system -/

/-- File-system state. `canon p` is the file that the path `p` names, so two paths name
the same file exactly when `canon` agrees on them; `content` is what a file holds (`none`
when it cannot be opened for reading), `canWrite` tells whether it can be opened for
writing (truncating or creating it). -/
structure FS where
  canon : String → String
  content : String → Option Bytes
  canWrite : String → Bool

/-- What is read through the path `p`. -/
def FS.files (fs : FS) (p : String) : Option Bytes := fs.content (fs.canon p)

/-- Whether the path `p` can be opened for writing. -/
def FS.writable (fs : FS) (p : String) : Bool := fs.canWrite (fs.canon p)

/-- A file system in which every path names a file of its own. -/
def FS.plain (files : String → Option Bytes) (writable : String → Bool) : FS :=
  ⟨fun p => p, files, writable⟩

/-- The file system after the file named by `file` was rewritten with `data`. -/
def written (fs : FS) (file : String) (data : Bytes) : FS :=
  ⟨fs.canon, fun n => if n = fs.canon file then some data else fs.content n, fs.canWrite⟩

/-- Model of `readFile`: `none` when the input stream fails to open. -/
def readFile (fs : FS) (path : String) : Option Bytes := fs.files path

/-- Model of `writeFile`: `none` when the output stream fails to open (the file system is
then unchanged), otherwise the file holds exactly `data`. -/
def writeFile (fs : FS) (path : String) (data : Bytes) : Option FS :=
  if fs.writable path then some (written fs path data) else none

/-- Model of `fs::copy_file(src, dst, overwrite_existing, ec)`: the copy happens when the
source can be read, the destination can be written and the two paths do not name the same
file; otherwise only `ec` is set, which the caller never inspects, and the file system is
unchanged. -/
def copyFile (fs : FS) (src dst : String) : FS :=
  match fs.files src with
  | none => fs
  | some c =>
    if fs.writable dst && decide (fs.canon src ≠ fs.canon dst) then written fs dst c
    else fs

/-! ## In-memory application of one file's edits -/

/-- Model of `std::string::replace(pos, len, str)`: throws `std::out_of_range`
(here `none`) when `pos > size()`, and otherwise replaces the span
`[pos, pos + min(len, size() - pos))`. -/
def replace (s : Bytes) (pos len : Nat) (str : Bytes) : Option Bytes :=
  if pos > s.length then none
  else some (s.take pos ++ str ++ s.drop (pos + min len (s.length - pos)))

/-- Result of walking one file's sorted edits over the working copy of its content. -/
inductive Walk where
  | done (content : Bytes)
  | outOfRange
  | threw
deriving DecidableEq, Repr

/-- The range check of the inner loop: `f.offset + f.length > content.size()`, the sum
being computed in `unsigned` arithmetic. -/
def rangeCheckFails (f : FixIt) (content : Bytes) : Bool :=
  decide ((f.offset + f.length) % 2 ^ 32 > content.length)

/-- The inner loop of `applyFixes` (lines 46-52): range check against the current working
content, then in-place replacement. -/
def applyVec : List FixIt → Bytes → Walk
  | [], content => Walk.done content
  | f :: rest, content =>
    if rangeCheckFails f content then Walk.outOfRange
    else
      match replace content f.offset f.length f.replacement with
      | none => Walk.threw
      | some content' => applyVec rest content'

/-- The comparator passed to `std::sort` (lines 42-44): `a.offset > b.offset`. -/
def byOffsetDesc (a b : FixIt) : Bool := decide (a.offset > b.offset)

/-- What the standard library leaves open: `sort` is `std::sort` with the comparator
`byOffsetDesc` (the result is a permutation in which no element compares before an earlier
one; the order of equivalent elements is not fixed), `keys` is the order in which the
`unordered_map` built from the fixes is iterated (each file exactly once). -/
structure StdLib where
  sort : List FixIt → List FixIt
  sort_perm : ∀ v, List.Perm (sort v) v
  sort_sorted : ∀ v, (sort v).Pairwise (fun a b => byOffsetDesc b a = false)
  keys : List FixIt → List String
  keys_nodup : ∀ fixes, (keys fixes).Nodup
  keys_mem : ∀ fixes p, p ∈ keys fixes ↔ ∃ f ∈ fixes, f.file = p

/-- The group `byFile[file]`: the fixes of `file` in arrival order (line 27). -/
def group (fixes : List FixIt) (file : String) : List FixIt :=
  fixes.filter (fun f => decide (f.file = file))

/-- The order in which the edits of `file` are applied: its group after `std::sort`. -/
def applyOrder (std : StdLib) (fixes : List FixIt) (file : String) : List FixIt :=
  std.sort (group fixes file)

/-- How a call of `applyFixes` ends: `ok` is `return true`, `failed msg` is `return false`
with `msg` stored through `error`, `threw` is an exception leaving the function. -/
inductive Outcome where
  | ok
  | failed (msg : String)
  | threw
deriving DecidableEq, Repr

/-- Lines 36-39: when `backup` is set the file is copied to `file + ".bak"`; the error
code of the copy is dropped, so the walk continues from this state either way. -/
def afterBackup (backup : Bool) (fs : FS) (file : String) : FS :=
  if backup then copyFile fs file (file ++ ".bak") else fs

/-- The loop over the files of the batch (lines 29-58). -/
def applyLoop (sort : List FixIt → List FixIt) (fixes : List FixIt) (backup : Bool) :
    List String → FS → Outcome × FS
  | [], fs => (Outcome.ok, fs)
  | file :: rest, fs =>
    match readFile fs file with
    | none => (Outcome.failed ("Failed to read " ++ file), fs)
    | some content =>
      match applyVec (sort (group fixes file)) content with
      | Walk.outOfRange =>
        (Outcome.failed ("Out-of-range fix in " ++ file), afterBackup backup fs file)
      | Walk.threw => (Outcome.threw, afterBackup backup fs file)
      | Walk.done content' =>
        match writeFile (afterBackup backup fs file) file content' with
        | none => (Outcome.failed ("Failed to write " ++ file), afterBackup backup fs file)
        | some fs2 => applyLoop sort fixes backup rest fs2

/-- Model of `RefactorEngine::applyFixes(fixes, backup, error)`. -/
def applyFixes (std : StdLib) (fixes : List FixIt) (backup : Bool) (fs : FS) :
    Outcome × FS :=
  applyLoop std.sort fixes backup (std.keys fixes) fs

/-! ## Sorting and map order of a concrete standard library -/

/-- Insertion sort with the engine's comparator; equivalent elements keep their arrival
order, which is what `std::sort` of libstdc++ and libc++ does on short ranges. -/
def stableSort (v : List FixIt) : List FixIt :=
  List.insertionSort (fun a b => b.offset ≤ a.offset) v

/-- The files of a batch, the most recently inserted first: the order in which the map of
libstdc++ is iterated when every key sits in a bucket of its own. -/
def lastInsertedFirst (fixes : List FixIt) : List String :=
  (fixes.map FixIt.file).reverse.dedup

/-! ## The single-pass reference splice -/

/-- The edits in ascending order of offset. -/
def ascending (edits : List FixIt) : List FixIt :=
  List.insertionSort (fun a b => a.offset ≤ b.offset) edits

/-- Single linear pass over ascending edits with a read cursor `pos` into the original
content: copy the untouched span up to the next edit, emit its replacement, skip its
span; after the last edit copy the rest. -/
def spliceFrom (c : Bytes) : Nat → List FixIt → Bytes
  | pos, [] => c.drop pos
  | pos, e :: es =>
    (c.drop pos).take (e.offset - pos) ++ e.replacement ++
      spliceFrom c (e.offset + e.length) es

/-- The reference splice of the spec (design notes): the untouched spans of `c` copied in
ascending order, each edit's span `[offset, offset+length)` replaced by its replacement. -/
def referenceSplice (c : Bytes) (edits : List FixIt) : Bytes :=
  spliceFrom c 0 (ascending edits)

/-- The splice written along a descending list of edits: the highest edit splits the
content, the lower edits are spliced into the part before it. -/
def spliceDesc : Bytes → List FixIt → Bytes
  | c, [] => c
  | c, e :: rest =>
    spliceDesc (c.take e.offset) rest ++ e.replacement ++ c.drop (e.offset + e.length)

/-- Separated descending list: every later edit ends at or before each earlier edit
starts. -/
def Separated (l : List FixIt) : Prop :=
  l.Pairwise (fun a b => b.offset + b.length ≤ a.offset)

/-! ## Vocabulary of the specification (section 4.1) -/

/-- The predicate `isWellFormed(edit, contentLength)`. -/
def isWellFormed (e : FixIt) (contentLength : Nat) : Prop :=
  e.offset + e.length ≤ contentLength

/-- The half-open byte ranges `[offset, offset+length)` of two edits have a byte in
common. -/
def rangesIntersect (a b : FixIt) : Prop :=
  max a.offset b.offset < min (a.offset + a.length) (b.offset + b.length)

/-- The predicate `overlaps(a, b)`: the ranges intersect, or both edits are zero-length
insertions at the same offset. -/
def overlaps (a b : FixIt) : Prop :=
  rangesIntersect a b ∨ (a.length = 0 ∧ b.length = 0 ∧ a.offset = b.offset)

instance (e : FixIt) (n : Nat) : Decidable (isWellFormed e n) := by
  unfold isWellFormed; infer_instance

instance (a b : FixIt) : Decidable (rangesIntersect a b) := by
  unfold rangesIntersect; infer_instance

instance (a b : FixIt) : Decidable (overlaps a b) := by
  unfold overlaps; infer_instance

/-- One edit spliced into a content: the bytes before the offset, the replacement, the
bytes from the end of the span on. -/
def spliceOne (c : Bytes) (e : FixIt) : Bytes :=
  c.take e.offset ++ e.replacement ++ c.drop (e.offset + e.length)

/-- The file `f` holds all of its own edits: `before` is some content `c`, and `after`
is `c` with every edit of the batch that targets `f` spliced in, one after the other, in
an order of non-increasing offset. -/
def AllEditsApplied (fixes : List FixIt) (f : String) (before after : Option Bytes) : Prop :=
  ∃ c order, before = some c ∧
    List.Perm order (fixes.filter (fun x => decide (x.file = f))) ∧
    order.Pairwise (fun a b => b.offset ≤ a.offset) ∧
    after = some (order.foldl spliceOne c)

/-- The apply order the specification prescribes (section 4.2, step 4): descending
offset, ties by descending length, remaining ties in arrival order. -/
def specOrder (v : List FixIt) : List FixIt :=
  List.insertionSort
    (fun a b => b.offset < a.offset ∨ (a.offset = b.offset ∧ b.length ≤ a.length)) v

instance : IsTotal FixIt
    (fun a b => b.offset < a.offset ∨ (a.offset = b.offset ∧ b.length ≤ a.length)) :=
  ⟨fun a b => by
    show (b.offset < a.offset ∨ (a.offset = b.offset ∧ b.length ≤ a.length)) ∨
      (a.offset < b.offset ∨ (b.offset = a.offset ∧ a.length ≤ b.length))
    omega⟩

instance : IsTrans FixIt
    (fun a b => b.offset < a.offset ∨ (a.offset = b.offset ∧ b.length ≤ a.length)) :=
  ⟨fun a b c h1 h2 => by
    show c.offset < a.offset ∨ (a.offset = c.offset ∧ c.length ≤ a.length)
    have h1' : b.offset < a.offset ∨ (a.offset = b.offset ∧ b.length ≤ a.length) := h1
    have h2' : c.offset < b.offset ∨ (b.offset = c.offset ∧ c.length ≤ b.length) := h2
    omega⟩

/-! ## A concrete standard library -/

instance : IsTotal FixIt (fun a b => b.offset ≤ a.offset) :=
  ⟨fun a b => Nat.le_total b.offset a.offset⟩

instance : IsTrans FixIt (fun a b => b.offset ≤ a.offset) :=
  ⟨fun _ _ _ h1 h2 => Nat.le_trans h2 h1⟩

instance : IsTotal FixIt (fun a b => a.offset ≤ b.offset) :=
  ⟨fun a b => Nat.le_total a.offset b.offset⟩

instance : IsTrans FixIt (fun a b => a.offset ≤ b.offset) :=
  ⟨fun _ _ _ h1 h2 => Nat.le_trans h1 h2⟩

/-- A standard library whose `std::sort` keeps equivalent elements in arrival order and
whose map is iterated from the most recently inserted file to the first one. -/
def stableStd : StdLib where
  sort := stableSort
  sort_perm := fun v => List.perm_insertionSort _ v
  sort_sorted := fun v => by
    have h := List.sorted_insertionSort (fun a b : FixIt => b.offset ≤ a.offset) v
    refine List.Pairwise.imp ?_ h
    intro a b hab
    simp [byOffsetDesc, hab]
  keys := lastInsertedFirst
  keys_nodup := fun fixes => List.nodup_dedup _
  keys_mem := fun fixes p => by simp [lastInsertedFirst]

/-! ## Suggestion provider (src/ai/AiEngine.cpp) -/

/-- Model of the interface `AiEngine`: both queries return an optional text. -/
structure AiEngine where
  suggestIdentifier : Bytes → Bytes → Bytes → Option Bytes
  docForSignature : Bytes → Option Bytes

/-- Model of `toLower`: `std::tolower` on every byte (default "C" locale, where only
`A`-`Z` change). -/
def toLower (s : Bytes) : Bytes := s.map Char.toLower

/-- Model of `t.find(pat) != std::string::npos`. -/
def findIn (t pat : Bytes) : Bool := t.tails.any (fun u => pat.isPrefixOf u)

/-- The lambda `isBad` of `suggestIdentifier`. -/
def isBad (current : Bytes) : Bool :=
  toLower current == "tmp".toList || toLower current == "data".toList ||
    toLower current == "foo".toList || toLower current == "bar".toList ||
    decide (current.length ≤ 2)

/-- One iteration of the sanitising loop: an alphanumeric byte is appended in lower case,
any other byte becomes one underscore unless `out` is empty or already ends in one. -/
def sanitizeStep (out : Bytes) (c : Char) : Bytes :=
  if c.isAlphanum then out ++ [c.toLower]
  else if !out.isEmpty && out.getLast? != some '_' then out ++ ['_']
  else out

/-- Model of `std::unique` followed by `erase`: `kept` is the last element retained, an
element is dropped when the predicate holds between `kept` and it. -/
def uniqueAux (p : Char → Char → Bool) : Char → List Char → List Char
  | kept, [] => [kept]
  | kept, x :: xs => if p kept x then uniqueAux p kept xs else kept :: uniqueAux p x xs

/-- Model of `out.erase(std::unique(out.begin(), out.end(), p), out.end())`. -/
def unique (p : Char → Char → Bool) : List Char → List Char
  | [] => []
  | a :: xs => uniqueAux p a xs

/-- The guard `out.empty() || isdigit(out[0])` and the insertion of a leading
underscore. -/
def guardFirst : Bytes → Bytes
  | [] => ['_']
  | c :: out => if c.isDigit then '_' :: c :: out else c :: out

/-- The fallback branch of `suggestIdentifier`: combine usage and type, sanitise. -/
def fallbackName (t usageHint : Bytes) : Bytes :=
  let base := if usageHint.isEmpty then t else toLower usageHint ++ "_".toList ++ t
  let base := if base.isEmpty then "value".toList else base
  unique (fun a b => a == '_' && b == '_') (guardFirst (base.foldl sanitizeStep []))

/-- Model of `HeuristicAi::suggestIdentifier`. -/
def suggestIdentifier (current typeHint usageHint : Bytes) : Option Bytes :=
  if !isBad current then none
  else if findIn (toLower typeHint) "bool".toList then some "flag".toList
  else if findIn (toLower typeHint) "string".toList then some "text".toList
  else if findIn (toLower typeHint) "vector".toList then some "values".toList
  else if findIn (toLower typeHint) "map".toList then some "lookup".toList
  else if findIn (toLower typeHint) "set".toList then some "items".toList
  else if findIn (toLower typeHint) "size_t".toList then some "count".toList
  else if findIn (toLower typeHint) "int".toList then some "count".toList
  else if findIn (toLower typeHint) "float".toList ||
      findIn (toLower typeHint) "double".toList then some "value".toList
  else if findIn (toLower typeHint) "char".toList then some "ch".toList
  else some (fallbackName (toLower typeHint) usageHint)

/-- Model of `HeuristicAi::docForSignature`. -/
def docForSignature (sig : Bytes) : Option Bytes :=
  some ("/**\n".toList ++ (" * @brief TODO: describe ".toList ++ sig ++ "\n".toList) ++
    " * @details Auto-generated doc stub. Fill in behavior, edge cases, and invariants.\n".toList
    ++ " */\n".toList)

/-- The engine returned by `makeHeuristicAi`. -/
def heuristicAi : AiEngine := ⟨suggestIdentifier, docForSignature⟩

/-- Lexically valid identifier in the sense of the claims: only ASCII lower-case letters,
digits and underscores. -/
def identChar (c : Char) : Bool := c.isLower || c.isDigit || c == '_'

/-- Non-empty, made of identifier characters, not starting with a digit. -/
def validIdentifier (s : Bytes) : Prop :=
  s ≠ [] ∧ (∀ c ∈ s, identChar c = true) ∧ (∀ c, s.head? = some c → c.isDigit = false)

/-- Two bytes are the same ASCII letter up to case: they are equal, or one is an upper-case
letter `A`-`Z` (codes 65 to 90) and the other is the byte 32 above it. -/
def sameLetter (a b : Char) : Prop :=
  a = b ∨ (65 ≤ a.toNat ∧ a.toNat ≤ 90 ∧ b.toNat = a.toNat + 32) ∨
    (65 ≤ b.toNat ∧ b.toNat ≤ 90 ∧ a.toNat = b.toNat + 32)

/-- Case-insensitive equality of two byte strings: same length, and the same letter up to
case at every position. -/
def equalsIgnoringCase (s w : Bytes) : Prop := List.Forall₂ sameLetter s w

/-! ## Analyzer options and the weak-name callback -/

/-- Model of `enum class Severity`. -/
inductive Severity where
  | Info
  | Warning
  | Error
deriving DecidableEq, Repr

/-- Model of `struct Issue`. -/
structure Issue where
  id : String
  severity : Severity
  message : Bytes
  file : String
  line : Nat
  column : Nat
  fixes : List FixIt
deriving DecidableEq, Repr

/-- Model of `struct AnalyzeOptions`. -/
structure AnalyzeOptions where
  longFunctionLineThreshold : Int
  suggestDocs : Bool
  suggestBetterVarNames : Bool
  fix : Bool
  backup : Bool
  parseAllComments : Bool
  extraArgs : List String
deriving DecidableEq, Repr

/-- The command-line flags of `main.cpp`. -/
structure Flags where
  longFn : Int
  fix : Bool
  noBackup : Bool
  noDocs : Bool
  noNames : Bool

/-- How `main` fills `AnalyzeOptions` from the flags (lines 45-50). -/
def mainOptions (fl : Flags) : AnalyzeOptions :=
  ⟨fl.longFn, !fl.noDocs, !fl.noNames, fl.fix, !fl.noBackup, true, []⟩

/-- Model of `struct Context` without the output vector, which is threaded explicitly. -/
structure Context where
  opts : AnalyzeOptions
  ai : Option AiEngine

/-- What `WeakVarNameCB::run` reads from a matched `clang::VarDecl`: the name, the printed
type, the const-ness, the presumed location, and offset and length of the name token. -/
structure VarDecl where
  isLocalVarDeclOrParm : Bool
  name : Bytes
  typeString : Bytes
  isConstexpr : Bool
  isConstQualified : Bool
  filename : Option String
  line : Nat
  column : Nat
  nameOffset : Nat
  nameLength : Nat

/-- The single quote character used in the issue message. -/
def quote : Char := Char.ofNat 39

/-- Model of `WeakVarNameCB::run`: `node` is the bound node `"var"` (absent when the cast
yields null), `out` the issue vector; the result is the vector after the call. -/
def weakVarNameRun (ctx : Context) (node : Option VarDecl) (out : List Issue) : List Issue :=
  match node with
  | none => out
  | some vd =>
    if !vd.isLocalVarDeclOrParm then out
    else if vd.name = "i".toList ∨ vd.name = "j".toList ∨ vd.name = "k".toList then out
    else
      let typeHint := vd.typeString
      let usageHint :=
        if vd.isConstexpr then "const".toList
        else if vd.isConstQualified then "const".toList else []
      let suggestion :=
        match ctx.ai with
        | some ai => ai.suggestIdentifier vd.name typeHint usageHint
        | none => none
      match suggestion with
      | none => out
      | some s =>
        let file := vd.filename.getD ""
        let fx : FixIt := ⟨file, vd.nameOffset, vd.nameLength, s, "Rename at declaration (MVP)"⟩
        out ++ [⟨"WEAK_NAME", Severity.Info,
          "Variable ".toList ++ [quote] ++ vd.name ++ [quote] ++
            " could be clearer, e.g. ".toList ++ [quote] ++ s ++ [quote],
          file, vd.line, vd.column, [fx]⟩]

/-! ## Concrete inputs used by the examples below -/

/-- A file system holding `a.cpp` with the content of scenarios A to C; every path can be
written. -/
def fsInt : FS :=
  FS.plain (fun p => if p = "a.cpp" then some "int tmp = 0;".toList else none)
    (fun _ => true)

/-- An insertion at offset 4. -/
def insX : FixIt := ⟨"a.cpp", 4, 0, "X".toList, ""⟩

/-- The insertion of scenario B. -/
def insAt10 : FixIt := ⟨"a.cpp", 10, 0, "X".toList, ""⟩

/-- The replacement of scenario A: `[4,7)` becomes `count`. -/
def replAt4 : FixIt := ⟨"a.cpp", 4, 3, "count".toList, ""⟩

/-- A replacement of `[6,9)`, overlapping `replAt4`. -/
def replAt6 : FixIt := ⟨"a.cpp", 6, 3, "XY".toList, ""⟩

/-- A file system holding a 6-byte `a.cpp`. -/
def fsSmall : FS :=
  FS.plain (fun p => if p = "a.cpp" then some "abcdef".toList else none) (fun _ => true)

/-- The edit of scenario D. -/
def farEdit : FixIt := ⟨"a.cpp", 100, 1, "Z".toList, ""⟩

/-- An insertion at offset 5 that grows the content by four bytes. -/
def growAt5 : FixIt := ⟨"a.cpp", 5, 0, "XXXX".toList, ""⟩

/-- An edit `[2,8)` that ends beyond a 6-byte content. -/
def staleAt2 : FixIt := ⟨"a.cpp", 2, 6, "R".toList, ""⟩

/-- A file system holding a 50-byte `a.cpp`. -/
def fs50 : FS :=
  FS.plain (fun p => if p = "a.cpp" then some (List.replicate 50 'x') else none)
    (fun _ => true)

/-- A file system with two source files. -/
def fsTwo : FS :=
  FS.plain (fun p => if p = "a.cpp" then some "int tmp = 0;".toList
    else if p = "b.cpp" then some "abcdef".toList else none) (fun _ => true)

/-- An out-of-range edit on `b.cpp`. -/
def farEditB : FixIt := ⟨"b.cpp", 100, 1, "Z".toList, ""⟩

/-- An in-range edit on `b.cpp`. -/
def editB : FixIt := ⟨"b.cpp", 0, 3, "xyz".toList, ""⟩

/-- A file system in which both `a` and its backup path `a.bak` are existing files. -/
def fsBak : FS :=
  FS.plain (fun p => if p = "a" then some "AAAA".toList
    else if p = "a.bak" then some "BBBB".toList else none) (fun _ => true)

/-- An edit on `a`. -/
def editA : FixIt := ⟨"a", 0, 1, "x".toList, ""⟩

/-- An edit on `a.bak`. -/
def editABak : FixIt := ⟨"a.bak", 0, 1, "y".toList, ""⟩

/-- A file system in which only `a.cpp` can be opened for writing, so that the backup copy
to `a.cpp.bak` fails. -/
def fsNoBak : FS :=
  FS.plain (fun p => if p = "a.cpp" then some "int tmp = 0;".toList else none)
    (fun p => decide (p = "a.cpp"))

/-- A file system in which `./a.cpp` names the file `a.cpp`, and `./a.cpp.bak` the file
`a.cpp.bak`. -/
def fsAlias : FS :=
  ⟨fun p => if p = "./a.cpp" then "a.cpp" else if p = "./a.cpp.bak" then "a.cpp.bak" else p,
   fun n => if n = "a.cpp" then some "int tmp = 0;".toList else none,
   fun _ => true⟩

/-- The replacement of scenario A, addressed through the path `./a.cpp`. -/
def replDot : FixIt := ⟨"./a.cpp", 4, 3, "count".toList, ""⟩

/-- An insertion at offset 0, addressed through the path `a.cpp`. -/
def insAt0 : FixIt := ⟨"a.cpp", 0, 0, "// ".toList, ""⟩

/-- An edit whose fields fit in 32 bits and whose sum `offset + length` wraps around to 1
in `unsigned` arithmetic. -/
def wrapEdit : FixIt := ⟨"a.cpp", 4294967295, 2, "Z".toList, ""⟩

/-- An edit inside the content whose length makes the 32-bit sum wrap around to 5. -/
def wrapLength : FixIt := ⟨"a.cpp", 10, 4294967291, "Z".toList, ""⟩

/-! ## Theorems -/

theorem byOffsetDesc_eq_false (a b : FixIt) :
    byOffsetDesc b a = false ↔ b.offset ≤ a.offset := by
  simp [byOffsetDesc]

theorem replace_inRange (s : Bytes) (pos len : Nat) (str : Bytes) (h : pos + len ≤ s.length) :
    replace s pos len str = some (s.take pos ++ str ++ s.drop (pos + len)) := by
  unfold replace
  have h1 : ¬ pos > s.length := by omega
  have h2 : min len (s.length - pos) = len := by omega
  simp [h1, h2]

theorem rangeCheck_passes (f : FixIt) (content : Bytes)
    (h : f.offset + f.length ≤ content.length) : rangeCheckFails f content = false := by
  unfold rangeCheckFails
  have := Nat.mod_le (f.offset + f.length) (2 ^ 32)
  simp only [decide_eq_false_iff_not]
  omega

theorem applyVec_separated : ∀ (l : List FixIt) (c s : Bytes),
    Separated l → (∀ e ∈ l, e.offset + e.length ≤ c.length) →
    applyVec l (c ++ s) = Walk.done (spliceDesc c l ++ s)
  | [], c, s, _, _ => by simp [applyVec, spliceDesc]
  | e :: rest, c, s, hsep, hin => by
    have he : e.offset + e.length ≤ c.length := hin e (List.mem_cons_self _ _)
    have hsep' := List.pairwise_cons.1 hsep
    have hcheck : rangeCheckFails e (c ++ s) = false :=
      rangeCheck_passes e (c ++ s) (by simp; omega)
    have hrep : replace (c ++ s) e.offset e.length e.replacement
        = some (c.take e.offset ++ (e.replacement ++ c.drop (e.offset + e.length) ++ s)) := by
      rw [replace_inRange _ _ _ _ (by simp; omega)]
      rw [List.take_append_of_le_length (by omega), List.drop_append_of_le_length (by omega)]
      simp
    have ih := applyVec_separated rest (c.take e.offset)
      (e.replacement ++ c.drop (e.offset + e.length) ++ s) hsep'.2
      (fun x hx => by
        have := hsep'.1 x hx
        simp only [List.length_take]
        omega)
    simp only [applyVec, hcheck, hrep, ih, spliceDesc]
    simp

theorem spliceFrom_snoc (c : Bytes) (e : FixIt) : ∀ (es : List FixIt) (pos : Nat),
    (∀ x ∈ es, x.offset ≤ e.offset) →
    spliceFrom c pos (es ++ [e]) =
      spliceFrom (c.take e.offset) pos es ++ e.replacement ++ c.drop (e.offset + e.length)
  | [], pos, _ => by
    simp [spliceFrom, List.drop_take]
  | x :: es, pos, h => by
    have hx : x.offset ≤ e.offset := h x (List.mem_cons_self _ _)
    have ih := spliceFrom_snoc c e es (x.offset + x.length)
      (fun y hy => h y (List.mem_cons_of_mem _ hy))
    have ht : List.take (x.offset - pos) (List.drop pos c)
        = List.take (x.offset - pos) (List.drop pos (List.take e.offset c)) := by
      rw [← List.drop_take, ← List.drop_take, List.take_take, Nat.min_eq_left hx]
    rw [List.cons_append]
    simp only [spliceFrom]
    rw [ih, ht]
    simp only [List.append_assoc]

theorem spliceDesc_eq_spliceFrom : ∀ (l : List FixIt) (c : Bytes),
    l.Pairwise (fun a b => b.offset ≤ a.offset) →
    spliceDesc c l = spliceFrom c 0 l.reverse
  | [], c, _ => by simp [spliceDesc, spliceFrom]
  | e :: rest, c, h => by
    have h' := List.pairwise_cons.1 h
    rw [List.reverse_cons, spliceFrom_snoc c e rest.reverse 0
      (fun x hx => h'.1 x (List.mem_reverse.1 hx))]
    simp only [spliceDesc, spliceDesc_eq_spliceFrom rest (c.take e.offset) h'.2]

theorem eq_of_offset_eq {l : List FixIt} (hd : (l.map FixIt.offset).Nodup) {a b : FixIt}
    (ha : a ∈ l) (hb : b ∈ l) (h : a.offset = b.offset) : a = b :=
  List.inj_on_of_nodup_map hd ha hb h

/-- With pairwise distinct offsets, every descending arrangement of the edits is the
reverse of the ascending one. -/
theorem descending_unique {edits l : List FixIt} (hd : (edits.map FixIt.offset).Nodup)
    (hp : List.Perm l edits) (hs : l.Pairwise (fun a b => byOffsetDesc b a = false)) :
    l.reverse = ascending edits := by
  have hs' : l.reverse.Pairwise (fun a b => a.offset ≤ b.offset) := by
    rw [List.pairwise_reverse]
    exact List.Pairwise.imp (fun {a b} hab => (byOffsetDesc_eq_false a b).1 hab) hs
  have ha : (ascending edits).Pairwise (fun a b => a.offset ≤ b.offset) :=
    List.sorted_insertionSort (fun a b : FixIt => a.offset ≤ b.offset) edits
  have hperm : List.Perm l.reverse (ascending edits) :=
    ((List.reverse_perm l).trans hp).trans (List.perm_insertionSort _ edits).symm
  refine List.Perm.eq_of_sorted (fun a b ha' hb' h1 h2 => ?_) hs' ha hperm
  have ha'' : a ∈ edits := hp.subset (List.mem_reverse.1 ha')
  have hb'' : b ∈ edits := (List.perm_insertionSort _ edits).subset hb'
  exact eq_of_offset_eq hd ha'' hb'' (Nat.le_antisymm h1 h2)

/-- Under distinct offsets and separation of the edits, the sorted list is separated. -/
theorem sorted_separated {edits l : List FixIt} (hd : (edits.map FixIt.offset).Nodup)
    (hsep : ∀ a ∈ edits, ∀ b ∈ edits, a.offset < b.offset → a.offset + a.length ≤ b.offset)
    (hp : List.Perm l edits) (hs : l.Pairwise (fun a b => byOffsetDesc b a = false)) :
    Separated l := by
  have hnd : l.Nodup := (hp.nodup_iff).2 (List.Nodup.of_map _ hd)
  have h2 : l.Pairwise (fun a b => a ≠ b) := hnd
  have h3 := List.Pairwise.and_mem.1 (hs.and h2)
  refine List.Pairwise.imp ?_ h3
  intro a b h
  obtain ⟨ha, hb, hle, hne⟩ := h
  have hle' := (byOffsetDesc_eq_false a b).1 hle
  have hne' : b.offset ≠ a.offset := fun h =>
    hne (eq_of_offset_eq hd (hp.subset ha) (hp.subset hb) h.symm)
  exact hsep b (hp.subset hb) a (hp.subset ha) (by omega)

theorem keys_single (std : StdLib) (edits : List FixIt) (file : String)
    (hfile : ∀ e ∈ edits, e.file = file) (hne : edits ≠ []) : std.keys edits = [file] := by
  have hnd := std.keys_nodup edits
  have hmem : ∀ p, p ∈ std.keys edits ↔ p = file := by
    intro p
    rw [std.keys_mem]
    constructor
    · rintro ⟨f, hf, rfl⟩; exact hfile f hf
    · rintro rfl
      obtain ⟨e, he⟩ := List.exists_mem_of_ne_nil edits hne
      exact ⟨e, he, hfile e he⟩
  cases hk : std.keys edits with
  | nil =>
    have := (hmem file).2 rfl
    rw [hk] at this; simp at this
  | cons a t =>
    rw [hk] at hnd hmem
    have ha : a = file := (hmem a).1 (List.mem_cons_self _ _)
    cases t with
    | nil => rw [ha]
    | cons b t' =>
      have hb : b = file := (hmem b).1 (by simp)
      simp [ha, hb] at hnd

theorem keys_nil (std : StdLib) : std.keys [] = [] := by
  apply List.eq_nil_iff_forall_not_mem.2
  intro p hp
  have := (std.keys_mem [] p).1 hp
  simp at this

theorem group_self (edits : List FixIt) (file : String)
    (hfile : ∀ e ∈ edits, e.file = file) : group edits file = edits := by
  unfold group
  exact List.filter_eq_self.2 (fun e he => by simp [hfile e he])

@[simp]
theorem written_canon (fs : FS) (file : String) (data : Bytes) :
    (written fs file data).canon = fs.canon := rfl

@[simp]
theorem written_writable (fs : FS) (file : String) (data : Bytes) (p : String) :
    (written fs file data).writable p = fs.writable p := rfl

theorem written_files_of_ne (fs : FS) (file p : String) (data : Bytes)
    (h : fs.canon p ≠ fs.canon file) : (written fs file data).files p = fs.files p := by
  simp [written, FS.files, h]

theorem written_files_self (fs : FS) (file : String) (data : Bytes) :
    (written fs file data).files file = some data := by
  simp [written, FS.files]

@[simp]
theorem copyFile_canon (fs : FS) (src dst : String) :
    (copyFile fs src dst).canon = fs.canon := by
  unfold copyFile
  split
  · rfl
  · split <;> rfl

@[simp]
theorem copyFile_writable (fs : FS) (src dst p : String) :
    (copyFile fs src dst).writable p = fs.writable p := by
  unfold copyFile
  split
  · rfl
  · split <;> rfl

theorem copyFile_files_of_ne (fs : FS) (src dst p : String)
    (h : fs.canon p ≠ fs.canon dst) : (copyFile fs src dst).files p = fs.files p := by
  unfold copyFile
  split
  · rfl
  · split
    · exact written_files_of_ne fs dst p _ h
    · rfl

/-- A copy never changes what is read through its source path: when source and
destination name the same file the copy is refused. -/
theorem copyFile_files_src (fs : FS) (src dst : String) :
    (copyFile fs src dst).files src = fs.files src := by
  by_cases h : fs.canon src = fs.canon dst
  · unfold copyFile
    split
    · rfl
    · simp [h]
  · exact copyFile_files_of_ne fs src dst src h

@[simp]
theorem afterBackup_canon (backup : Bool) (fs : FS) (file : String) :
    (afterBackup backup fs file).canon = fs.canon := by
  unfold afterBackup
  split
  · exact copyFile_canon _ _ _
  · rfl

@[simp]
theorem afterBackup_writable (backup : Bool) (fs : FS) (file p : String) :
    (afterBackup backup fs file).writable p = fs.writable p := by
  unfold afterBackup
  split
  · exact copyFile_writable _ _ _ _
  · rfl

theorem afterBackup_files_of_ne (backup : Bool) (fs : FS) (file p : String)
    (h : fs.canon p ≠ fs.canon (file ++ ".bak")) :
    (afterBackup backup fs file).files p = fs.files p := by
  unfold afterBackup
  split
  · exact copyFile_files_of_ne _ _ _ _ h
  · rfl

theorem afterBackup_files_self (backup : Bool) (fs : FS) (file : String) :
    (afterBackup backup fs file).files file = fs.files file := by
  unfold afterBackup
  split
  · exact copyFile_files_src _ _ _
  · rfl

theorem applyLoop_read_fail (sort : List FixIt → List FixIt) (fixes : List FixIt)
    (backup : Bool) (file : String) (rest : List String) (fs : FS)
    (hread : fs.files file = none) :
    applyLoop sort fixes backup (file :: rest) fs
      = (Outcome.failed ("Failed to read " ++ file), fs) := by
  simp only [applyLoop, readFile, hread]

theorem applyLoop_outOfRange (sort : List FixIt → List FixIt) (fixes : List FixIt)
    (backup : Bool) (file : String) (rest : List String) (fs : FS) (c : Bytes)
    (hread : fs.files file = some c)
    (hwalk : applyVec (sort (group fixes file)) c = Walk.outOfRange) :
    applyLoop sort fixes backup (file :: rest) fs
      = (Outcome.failed ("Out-of-range fix in " ++ file), afterBackup backup fs file) := by
  simp only [applyLoop, readFile, hread, hwalk, afterBackup]

theorem applyLoop_threw (sort : List FixIt → List FixIt) (fixes : List FixIt)
    (backup : Bool) (file : String) (rest : List String) (fs : FS) (c : Bytes)
    (hread : fs.files file = some c)
    (hwalk : applyVec (sort (group fixes file)) c = Walk.threw) :
    applyLoop sort fixes backup (file :: rest) fs
      = (Outcome.threw, afterBackup backup fs file) := by
  simp only [applyLoop, readFile, hread, hwalk, afterBackup]

theorem applyLoop_write_fail (sort : List FixIt → List FixIt) (fixes : List FixIt)
    (backup : Bool) (file : String) (rest : List String) (fs : FS) (c c' : Bytes)
    (hread : fs.files file = some c)
    (hwalk : applyVec (sort (group fixes file)) c = Walk.done c')
    (hw : fs.writable file = false) :
    applyLoop sort fixes backup (file :: rest) fs
      = (Outcome.failed ("Failed to write " ++ file), afterBackup backup fs file) := by
  simp only [applyLoop, readFile, hread, hwalk, writeFile, afterBackup_writable, hw]
  simp

theorem applyLoop_written (sort : List FixIt → List FixIt) (fixes : List FixIt)
    (backup : Bool) (file : String) (rest : List String) (fs : FS) (c c' : Bytes)
    (hread : fs.files file = some c)
    (hwalk : applyVec (sort (group fixes file)) c = Walk.done c')
    (hw : fs.writable file = true) :
    applyLoop sort fixes backup (file :: rest) fs
      = applyLoop sort fixes backup rest (written (afterBackup backup fs file) file c') := by
  simp only [applyLoop, readFile, hread, hwalk, writeFile, afterBackup_writable, hw]
  simp

theorem applyVec_sorted_eq_referenceSplice (std : StdLib) (c : Bytes) (edits : List FixIt)
    (hwf : ∀ e ∈ edits, e.offset + e.length ≤ c.length)
    (hd : (edits.map FixIt.offset).Nodup)
    (hsep : ∀ a ∈ edits, ∀ b ∈ edits, a.offset < b.offset → a.offset + a.length ≤ b.offset) :
    applyVec (std.sort edits) c = Walk.done (referenceSplice c edits) := by
  have hp := std.sort_perm edits
  have hs := std.sort_sorted edits
  have h1 := applyVec_separated (std.sort edits) c [] (sorted_separated hd hsep hp hs)
    (fun e he => hwf e (hp.subset he))
  rw [List.append_nil, List.append_nil] at h1
  rw [h1, spliceDesc_eq_spliceFrom _ _
    (List.Pairwise.imp (fun {a b} hab => (byOffsetDesc_eq_false a b).1 hab) hs),
    descending_unique hd hp hs]
  rfl

/-- C1: for a file that can be read and written, with content `c`, and edits that all
target it, lie inside `c`, have pairwise distinct offsets and are separated (a lower edit
ends at or before a higher one starts), `applyFixes` returns true and the file ends up
holding the single-pass reference splice of `c`, whatever the lengths of the replacements,
with or without backup, for every standard library. -/
theorem applyFixes_eq_referenceSplice (std : StdLib) (fs : FS) (file : String) (c : Bytes)
    (edits : List FixIt) (backup : Bool)
    (hread : fs.files file = some c) (hwrite : fs.writable file = true)
    (hfile : ∀ e ∈ edits, e.file = file)
    (hwf : ∀ e ∈ edits, e.offset + e.length ≤ c.length)
    (hd : (edits.map FixIt.offset).Nodup)
    (hsep : ∀ a ∈ edits, ∀ b ∈ edits, a.offset < b.offset → a.offset + a.length ≤ b.offset) :
    (applyFixes std edits backup fs).1 = Outcome.ok ∧
    (applyFixes std edits backup fs).2.files file = some (referenceSplice c edits) := by
  by_cases hne : edits = []
  · subst hne
    simp [applyFixes, keys_nil, applyLoop, hread, referenceSplice, ascending, spliceFrom]
  · have hwalk : applyVec (std.sort (group edits file)) c
        = Walk.done (referenceSplice c edits) := by
      rw [group_self edits file hfile]
      exact applyVec_sorted_eq_referenceSplice std c edits hwf hd hsep
    unfold applyFixes
    rw [keys_single std edits file hfile hne,
      applyLoop_written _ _ _ _ _ _ c _ hread hwalk hwrite]
    exact ⟨rfl, written_files_self _ _ _⟩

/-- C1, witness: scenario B of the specification, an insertion at 10 and a replacement of
`[4,7)` on `int tmp = 0;`. -/
theorem applyFixes_eq_referenceSplice_witness :
    (applyFixes stableStd [insAt10, replAt4] true fsInt).1 = Outcome.ok ∧
    (applyFixes stableStd [insAt10, replAt4] true fsInt).2.files "a.cpp"
      = some "int count = X0;".toList :=
  applyFixes_eq_referenceSplice stableStd fsInt "a.cpp" "int tmp = 0;".toList
    [insAt10, replAt4] true
    (by decide) (by decide) (by decide) (by decide) (by decide) (by decide)

/-- C2, counterexample: an insertion at offset 4 and a replacement of `[4,7)` are
well-formed and do not overlap (under either reading of overlap), yet the two orderings
of the input list leave different contents in the file. -/
theorem applyFixes_order_dependent :
    fsInt.files "a.cpp" = some "int tmp = 0;".toList ∧
    isWellFormed insX "int tmp = 0;".toList.length ∧
    isWellFormed replAt4 "int tmp = 0;".toList.length ∧
    ¬ rangesIntersect insX replAt4 ∧ ¬ overlaps insX replAt4 ∧
    List.Perm [insX, replAt4] [replAt4, insX] ∧
    (applyFixes stableStd [insX, replAt4] false fsInt).2.files "a.cpp"
      = some "int countp = 0;".toList ∧
    (applyFixes stableStd [replAt4, insX] false fsInt).2.files "a.cpp"
      = some "int Xcount = 0;".toList := by
  refine ⟨by decide, by decide, by decide, by decide, by decide, List.Perm.swap _ _ _,
    by decide, by decide⟩

theorem sort_perm_invariant (std : StdLib) {l1 l2 : List FixIt}
    (hd : (l1.map FixIt.offset).Nodup) (hp : List.Perm l1 l2) : std.sort l1 = std.sort l2 := by
  have h1 := descending_unique hd (std.sort_perm l1) (std.sort_sorted l1)
  have h2 := descending_unique hd ((std.sort_perm l2).trans hp.symm) (std.sort_sorted l2)
  have := h1.trans h2.symm
  exact List.reverse_injective this

/-- C2, amended: for edits on one file that are well-formed, pairwise non-overlapping and
have pairwise distinct offsets, every permutation of the input list gives the same
outcome and the same final file system. Only the distinctness of the offsets is used by
the proof. -/
theorem applyFixes_perm_invariant (std : StdLib) (fs : FS) (file : String) (c : Bytes)
    (l1 l2 : List FixIt) (backup : Bool)
    (_hread : fs.files file = some c)
    (hfile : ∀ e ∈ l1, e.file = file)
    (_hwf : ∀ e ∈ l1, isWellFormed e c.length)
    (_hno : l1.Pairwise (fun a b => ¬ rangesIntersect a b))
    (hd : (l1.map FixIt.offset).Nodup)
    (hp : List.Perm l1 l2) :
    applyFixes std l1 backup fs = applyFixes std l2 backup fs := by
  have hfile2 : ∀ e ∈ l2, e.file = file := fun e he => hfile e (hp.symm.subset he)
  by_cases hne : l1 = []
  · subst hne
    rw [List.nil_perm] at hp
    rw [hp]
  · have hne2 : l2 ≠ [] := fun h => hne (by rw [h] at hp; exact List.perm_nil.1 hp)
    unfold applyFixes
    rw [keys_single std l1 file hfile hne, keys_single std l2 file hfile2 hne2]
    simp only [applyLoop, group_self l1 file hfile, group_self l2 file hfile2,
      sort_perm_invariant std hd hp]

/-- C2, witness: two insertions at different offsets, in both orders. -/
theorem applyFixes_perm_invariant_witness :
    applyFixes stableStd [insX, ⟨"a.cpp", 10, 0, "Y".toList, ""⟩] true fsInt
      = applyFixes stableStd [⟨"a.cpp", 10, 0, "Y".toList, ""⟩, insX] true fsInt :=
  applyFixes_perm_invariant stableStd fsInt "a.cpp" "int tmp = 0;".toList _ _ true
    (by decide) (by decide) (by decide) (by decide) (by decide) (List.Perm.swap _ _ _)

/-- C4, counterexample: on the 6-byte content `abcdef` the edit `(2, 6)` ends beyond
the original content, but an insertion at 5 applied before it has grown the working copy,
so the range check passes, the edit is applied and the call returns true. -/
theorem applyFixes_applies_stale_edit :
    fsSmall.files "a.cpp" = some "abcdef".toList ∧
    staleAt2.offset + staleAt2.length > "abcdef".toList.length ∧
    (applyFixes stableStd [growAt5, staleAt2] false fsSmall).1 = Outcome.ok ∧
    (applyFixes stableStd [growAt5, staleAt2] false fsSmall).2.files "a.cpp"
      = some "abRXf".toList := by
  refine ⟨by decide, by decide, by decide, by decide⟩

theorem rangeCheck_fails (f : FixIt) (content : Bytes)
    (h32 : f.offset + f.length < 2 ^ 32) (h : f.offset + f.length > content.length) :
    rangeCheckFails f content = true := by
  unfold rangeCheckFails
  rw [Nat.mod_eq_of_lt h32]
  simpa using h

/-- C4, amended: for edits on one readable file with pairwise distinct offsets that are
separated and whose `offset + length` stays below `2^32`, if some edit ends beyond the
original content then `applyFixes` returns false with the out-of-range message of that
file and the file keeps its content. -/
theorem applyFixes_rejects_out_of_range (std : StdLib) (fs : FS) (file : String) (c : Bytes)
    (edits : List FixIt) (backup : Bool)
    (hread : fs.files file = some c)
    (hfile : ∀ e ∈ edits, e.file = file)
    (hd : (edits.map FixIt.offset).Nodup)
    (hsep : ∀ a ∈ edits, ∀ b ∈ edits, a.offset < b.offset → a.offset + a.length ≤ b.offset)
    (h32 : ∀ e ∈ edits, e.offset + e.length < 2 ^ 32)
    (hbad : ∃ e ∈ edits, e.offset + e.length > c.length) :
    (applyFixes std edits backup fs).1 = Outcome.failed ("Out-of-range fix in " ++ file) ∧
    (applyFixes std edits backup fs).2.files file = some c := by
  obtain ⟨e, he, hbig⟩ := hbad
  have hne : edits ≠ [] := List.ne_nil_of_mem he
  have hp := std.sort_perm edits
  have hs := std.sort_sorted edits
  have hwalk : applyVec (std.sort (group edits file)) c = Walk.outOfRange := by
    rw [group_self edits file hfile]
    cases hl : std.sort edits with
    | nil =>
      have := hp.symm.subset he
      rw [hl] at this; simp at this
    | cons h rest =>
      rw [hl] at hp hs
      have hh : h ∈ edits := hp.subset (List.mem_cons_self _ _)
      have hbigh : h.offset + h.length > c.length := by
        have hmem : e ∈ h :: rest := hp.symm.subset he
        rcases List.mem_cons.1 hmem with rfl | hrest
        · exact hbig
        · have hle := (byOffsetDesc_eq_false h e).1 ((List.pairwise_cons.1 hs).1 e hrest)
          have hne' : e.offset ≠ h.offset := by
            intro heq
            have hnd : (h :: rest).Nodup := (hp.nodup_iff).2 (List.Nodup.of_map _ hd)
            have := eq_of_offset_eq hd he hh heq
            subst this
            exact (List.nodup_cons.1 hnd).1 hrest
          have := hsep e he h hh (by omega)
          omega
      simp [applyVec, rangeCheck_fails h c (h32 h hh) hbigh]
  unfold applyFixes
  rw [keys_single std edits file hfile hne, applyLoop_outOfRange _ _ _ _ _ _ c hread hwalk]
  exact ⟨rfl, by rw [afterBackup_files_self, hread]⟩

/-- C4, witness: scenario D of the specification, an edit at offset 100 against a 50-byte
file. -/
theorem applyFixes_rejects_out_of_range_witness :
    (applyFixes stableStd [farEdit] true fs50).1 = Outcome.failed "Out-of-range fix in a.cpp" ∧
    (applyFixes stableStd [farEdit] true fs50).2.files "a.cpp" = some (List.replicate 50 'x') :=
  applyFixes_rejects_out_of_range stableStd fs50 "a.cpp" (List.replicate 50 'x') [farEdit] true
    (by decide) (by decide) (by decide) (by decide) (by decide) (by decide)

/-- One iteration of the file loop ends in exactly one of five ways. -/
theorem applyLoop_cases (sort : List FixIt → List FixIt) (fixes : List FixIt)
    (backup : Bool) (file : String) (rest : List String) (fs : FS) :
    (fs.files file = none ∧
      applyLoop sort fixes backup (file :: rest) fs
        = (Outcome.failed ("Failed to read " ++ file), fs)) ∨
    (∃ c, fs.files file = some c ∧
      applyVec (sort (group fixes file)) c = Walk.outOfRange ∧
      applyLoop sort fixes backup (file :: rest) fs
        = (Outcome.failed ("Out-of-range fix in " ++ file), afterBackup backup fs file)) ∨
    (∃ c, fs.files file = some c ∧
      applyVec (sort (group fixes file)) c = Walk.threw ∧
      applyLoop sort fixes backup (file :: rest) fs
        = (Outcome.threw, afterBackup backup fs file)) ∨
    (∃ c c', fs.files file = some c ∧
      applyVec (sort (group fixes file)) c = Walk.done c' ∧ fs.writable file = false ∧
      applyLoop sort fixes backup (file :: rest) fs
        = (Outcome.failed ("Failed to write " ++ file), afterBackup backup fs file)) ∨
    (∃ c c', fs.files file = some c ∧
      applyVec (sort (group fixes file)) c = Walk.done c' ∧ fs.writable file = true ∧
      applyLoop sort fixes backup (file :: rest) fs
        = applyLoop sort fixes backup rest (written (afterBackup backup fs file) file c')) := by
  cases hread : fs.files file with
  | none => exact Or.inl ⟨rfl, applyLoop_read_fail _ _ _ _ _ _ hread⟩
  | some c =>
    cases hwalk : applyVec (sort (group fixes file)) c with
    | outOfRange =>
      exact Or.inr (Or.inl ⟨c, rfl, hwalk, applyLoop_outOfRange _ _ _ _ _ _ c hread hwalk⟩)
    | threw =>
      exact Or.inr (Or.inr (Or.inl ⟨c, rfl, hwalk, applyLoop_threw _ _ _ _ _ _ c hread hwalk⟩))
    | done c' =>
      cases hw : fs.writable file with
      | false =>
        exact Or.inr (Or.inr (Or.inr (Or.inl
          ⟨c, c', rfl, hwalk, rfl, applyLoop_write_fail _ _ _ _ _ _ c c' hread hwalk hw⟩)))
      | true =>
        exact Or.inr (Or.inr (Or.inr (Or.inr
          ⟨c, c', rfl, hwalk, rfl, applyLoop_written _ _ _ _ _ _ c c' hread hwalk hw⟩)))

/-- The loop never changes which file a path names. -/
theorem applyLoop_canon (sort : List FixIt → List FixIt) (fixes : List FixIt)
    (backup : Bool) : ∀ (keys : List String) (fs : FS),
    (applyLoop sort fixes backup keys fs).2.canon = fs.canon
  | [], fs => by simp [applyLoop]
  | file :: rest, fs => by
    rcases applyLoop_cases sort fixes backup file rest fs with
      ⟨_, hr⟩ | ⟨c, _, _, hr⟩ | ⟨c, _, _, hr⟩ | ⟨c, c', _, _, _, hr⟩ | ⟨c, c', _, _, _, hr⟩
    · rw [hr]
    · rw [hr]; exact afterBackup_canon _ _ _
    · rw [hr]; exact afterBackup_canon _ _ _
    · rw [hr]; exact afterBackup_canon _ _ _
    · rw [hr, applyLoop_canon sort fixes backup rest _]
      simp

/-- The loop touches only the files named by the targeted paths and by their backup
paths. -/
theorem applyLoop_frame (sort : List FixIt → List FixIt) (fixes : List FixIt)
    (backup : Bool) (p : String) : ∀ (keys : List String) (fs : FS),
    (∀ k ∈ keys, fs.canon p ≠ fs.canon k ∧ fs.canon p ≠ fs.canon (k ++ ".bak")) →
    (applyLoop sort fixes backup keys fs).2.files p = fs.files p
  | [], fs, _ => by simp [applyLoop]
  | file :: rest, fs, h => by
    have hp := h file (List.mem_cons_self _ _)
    have hb : (afterBackup backup fs file).files p = fs.files p :=
      afterBackup_files_of_ne _ _ _ _ hp.2
    rcases applyLoop_cases sort fixes backup file rest fs with
      ⟨_, hr⟩ | ⟨c, _, _, hr⟩ | ⟨c, _, _, hr⟩ | ⟨c, c', _, _, _, hr⟩ | ⟨c, c', _, _, _, hr⟩
    · rw [hr]
    · rw [hr]; exact hb
    · rw [hr]; exact hb
    · rw [hr]; exact hb
    · rw [hr, applyLoop_frame sort fixes backup p rest _
        (fun k hk => by simpa using h k (List.mem_cons_of_mem _ hk)),
        written_files_of_ne _ _ _ _ (by simpa using hp.1)]
      exact hb

/-- One edit spliced into a content, stated without the engine: the bytes before the
offset, the replacement, the bytes after the span. -/
theorem applyVec_done_eq_foldl : ∀ (l : List FixIt) (c c' : Bytes),
    applyVec l c = Walk.done c' → c' = l.foldl spliceOne c
  | [], c, c', h => by
    simp only [applyVec, Walk.done.injEq] at h
    simp [h]
  | f :: rest, c, c', h => by
    unfold applyVec at h
    split at h
    · cases h
    · cases hrep : replace c f.offset f.length f.replacement with
      | none => rw [hrep] at h; cases h
      | some d =>
        rw [hrep] at h
        have hd : d = spliceOne c f := by
          unfold replace at hrep
          split at hrep
          · cases hrep
          · rename_i hpos
            have hdrop : c.drop (f.offset + min f.length (c.length - f.offset))
                = c.drop (f.offset + f.length) := by
              by_cases hl : f.length ≤ c.length - f.offset
              · rw [Nat.min_eq_left hl]
              · rw [Nat.min_eq_right (by omega), List.drop_eq_nil_of_le (by omega),
                  List.drop_eq_nil_of_le (by omega)]
            rw [hdrop] at hrep
            exact (Option.some.inj hrep).symm
        rw [List.foldl_cons, ← hd]
        exact applyVec_done_eq_foldl rest d c' h

/-- Failure containment for the file loop. -/
theorem applyLoop_containment (sort : List FixIt → List FixIt) (fixes : List FixIt)
    (backup : Bool) : ∀ (keys : List String) (fs : FS) (msg : String),
    keys.Nodup →
    (∀ k ∈ keys, ∀ k' ∈ keys, fs.canon k = fs.canon k' → k = k') →
    (∀ k ∈ keys, ∀ k' ∈ keys, k ≠ k' → fs.canon (k ++ ".bak") ≠ fs.canon k') →
    (applyLoop sort fixes backup keys fs).1 = Outcome.failed msg →
    ∃ processed failing pending, keys = processed ++ failing :: pending ∧
      (msg = "Failed to read " ++ failing ∨ msg = "Out-of-range fix in " ++ failing ∨
        msg = "Failed to write " ++ failing) ∧
      (applyLoop sort fixes backup keys fs).2.files failing = fs.files failing ∧
      (∀ f ∈ processed, ∃ c c', fs.files f = some c ∧
        applyVec (sort (group fixes f)) c = Walk.done c' ∧
        (applyLoop sort fixes backup keys fs).2.files f = some c') ∧
      (∀ f ∈ pending, (applyLoop sort fixes backup keys fs).2.files f = fs.files f)
  | [], fs, msg, _, _, _, hfail => by simp [applyLoop] at hfail
  | file :: rest, fs, msg, hnd, hinj, hna, hfail => by
    have hnd' := List.nodup_cons.1 hnd
    have hne : ∀ f ∈ rest, f ≠ file := fun f hf h => hnd'.1 (by rw [← h]; exact hf)
    have hstay : ∀ f ∈ file :: rest, (afterBackup backup fs file).files f = fs.files f := by
      intro f hf
      rcases List.mem_cons.1 hf with rfl | hf'
      · exact afterBackup_files_self _ _ _
      · exact afterBackup_files_of_ne _ _ _ _
          (fun h => hna file (List.mem_cons_self _ _) f hf (hne f hf').symm h.symm)
    have stop : ∀ m, applyLoop sort fixes backup (file :: rest) fs
          = (Outcome.failed (m ++ file), afterBackup backup fs file) →
        msg = m ++ file ∧
        (applyLoop sort fixes backup (file :: rest) fs).2.files file = fs.files file ∧
        (∀ f ∈ rest, (applyLoop sort fixes backup (file :: rest) fs).2.files f = fs.files f) := by
      intro m hr
      rw [hr] at hfail ⊢
      refine ⟨?_, hstay file (List.mem_cons_self _ _),
        fun f hf => hstay f (List.mem_cons_of_mem _ hf)⟩
      simpa using hfail.symm
    rcases applyLoop_cases sort fixes backup file rest fs with
      ⟨hread, hr⟩ | ⟨c, _, _, hr⟩ | ⟨c, _, _, hr⟩ | ⟨c, c', _, _, _, hr⟩ |
      ⟨c, c', hread, hwalk, _, hr⟩
    · refine ⟨[], file, rest, rfl, ?_, ?_, by simp, ?_⟩
      · rw [hr] at hfail
        exact Or.inl (by simpa using hfail.symm)
      · rw [hr]
      · intro f _; rw [hr]
    · obtain ⟨h1, h2, h3⟩ := stop _ hr
      exact ⟨[], file, rest, rfl, Or.inr (Or.inl h1), h2, by simp, h3⟩
    · rw [hr] at hfail
      simp at hfail
    · obtain ⟨h1, h2, h3⟩ := stop _ hr
      exact ⟨[], file, rest, rfl, Or.inr (Or.inr h1), h2, by simp, h3⟩
    · rw [hr] at hfail ⊢
      have hkeep : ∀ f ∈ rest,
          (written (afterBackup backup fs file) file c').files f = fs.files f := by
        intro f hf
        rw [written_files_of_ne _ _ _ _ (by
          simp only [afterBackup_canon]
          exact fun h => hne f hf
            (hinj f (List.mem_cons_of_mem _ hf) file (List.mem_cons_self _ _) h))]
        exact hstay f (List.mem_cons_of_mem _ hf)
      obtain ⟨processed, failing, pending, hsplit, hmsg, hfailing, hproc, hpend⟩ :=
        applyLoop_containment sort fixes backup rest _ msg hnd'.2
          (fun k hk k' hk' => by
            simpa using hinj k (List.mem_cons_of_mem _ hk) k' (List.mem_cons_of_mem _ hk'))
          (fun k hk k' hk' => by
            simpa using hna k (List.mem_cons_of_mem _ hk) k' (List.mem_cons_of_mem _ hk'))
          hfail
      have hsub : ∀ f, f ∈ processed ∨ f = failing ∨ f ∈ pending → f ∈ rest := by
        intro f hf
        rw [hsplit]
        simp only [List.mem_append, List.mem_cons]
        tauto
      refine ⟨file :: processed, failing, pending, by rw [hsplit]; rfl, hmsg, ?_, ?_, ?_⟩
      · rw [hfailing]
        exact hkeep failing (hsub failing (Or.inr (Or.inl rfl)))
      · intro f hf
        rcases List.mem_cons.1 hf with rfl | hf'
        · refine ⟨c, c', hread, hwalk, ?_⟩
          rw [applyLoop_frame sort fixes backup f rest _ (fun k hk => by
            simp only [written_canon, afterBackup_canon]
            exact ⟨fun h => hne k hk
                (hinj f (List.mem_cons_self _ _) k (List.mem_cons_of_mem _ hk) h).symm,
              fun h => hna k (List.mem_cons_of_mem _ hk) f (List.mem_cons_self _ _)
                (hne k hk) h.symm⟩)]
          exact written_files_self _ _ _
        · obtain ⟨d, d', hd1, hd2, hd3⟩ := hproc f hf'
          rw [hkeep f (hsub f (Or.inl hf'))] at hd1
          exact ⟨d, d', hd1, hd2, hd3⟩
      · intro f hf
        rw [hpend f hf]
        exact hkeep f (hsub f (Or.inr (Or.inr hf)))

/-- C5, counterexample: `a.cpp` and `./a.cpp` name one file and neither path is the backup
path of the other. The edit addressed through `./a.cpp` is applied and written first, then
the range check fails on `a.cpp`: the call returns false and the file on which it failed
holds the rewritten bytes, not its original ones. -/
theorem applyFixes_failure_after_alias_write :
    fsAlias.canon "./a.cpp" = fsAlias.canon "a.cpp" ∧
    farEdit.file ++ ".bak" ≠ replDot.file ∧ replDot.file ++ ".bak" ≠ farEdit.file ∧
    fsAlias.files "a.cpp" = some "int tmp = 0;".toList ∧
    (applyFixes stableStd [farEdit, replDot] false fsAlias).1
      = Outcome.failed "Out-of-range fix in a.cpp" ∧
    (applyFixes stableStd [farEdit, replDot] false fsAlias).2.files "a.cpp"
      = some "int count = 0;".toList := by
  refine ⟨by decide, by decide, by decide, by decide, by decide, by decide⟩

/-- C5, amended: when different targeted paths name different files and no targeted
path's backup path names the file of another targeted path, a call that returns false
splits the iteration order into the files processed before, the failing file (named in the
message) and the pending files. The failing file and the pending files hold their original
bytes. Every file processed before holds all of its own edits: its bytes are the original
ones with the edits of that file spliced in one after the other, from the highest offset
down. So every targeted file holds either its original bytes or all of its edits. -/
theorem applyFixes_failure_containment (std : StdLib) (fixes : List FixIt) (backup : Bool)
    (fs : FS) (msg : String)
    (hdistinct : ∀ a ∈ fixes, ∀ b ∈ fixes, fs.canon a.file = fs.canon b.file → a.file = b.file)
    (hnoalias : ∀ a ∈ fixes, ∀ b ∈ fixes, a.file ≠ b.file →
      fs.canon (a.file ++ ".bak") ≠ fs.canon b.file)
    (hfail : (applyFixes std fixes backup fs).1 = Outcome.failed msg) :
    ∃ processed failing pending, std.keys fixes = processed ++ failing :: pending ∧
      (msg = "Failed to read " ++ failing ∨ msg = "Out-of-range fix in " ++ failing ∨
        msg = "Failed to write " ++ failing) ∧
      (applyFixes std fixes backup fs).2.files failing = fs.files failing ∧
      (∀ f ∈ processed, AllEditsApplied fixes f (fs.files f)
        ((applyFixes std fixes backup fs).2.files f)) ∧
      (∀ f ∈ pending, (applyFixes std fixes backup fs).2.files f = fs.files f) ∧
      (∀ x ∈ fixes, (applyFixes std fixes backup fs).2.files x.file = fs.files x.file ∨
        AllEditsApplied fixes x.file (fs.files x.file)
          ((applyFixes std fixes backup fs).2.files x.file)) := by
  obtain ⟨processed, failing, pending, hsplit, hmsg, hfailing, hproc, hpend⟩ :=
    applyLoop_containment std.sort fixes backup (std.keys fixes) fs msg
      (std.keys_nodup fixes)
      (fun k hk k' hk' h => by
        obtain ⟨a, ha, rfl⟩ := (std.keys_mem fixes k).1 hk
        obtain ⟨b, hb, rfl⟩ := (std.keys_mem fixes k').1 hk'
        exact hdistinct a ha b hb h)
      (fun k hk k' hk' h => by
        obtain ⟨a, ha, rfl⟩ := (std.keys_mem fixes k).1 hk
        obtain ⟨b, hb, rfl⟩ := (std.keys_mem fixes k').1 hk'
        exact hnoalias a ha b hb h)
      hfail
  have hfull : ∀ f ∈ processed, AllEditsApplied fixes f (fs.files f)
      ((applyFixes std fixes backup fs).2.files f) := by
    intro f hf
    obtain ⟨c, c', h1, h2, h3⟩ := hproc f hf
    refine ⟨c, std.sort (group fixes f), h1, std.sort_perm _, ?_, ?_⟩
    · exact List.Pairwise.imp (fun {a b} hab => (byOffsetDesc_eq_false a b).1 hab)
        (std.sort_sorted _)
    · rw [← applyVec_done_eq_foldl _ _ _ h2]
      exact h3
  refine ⟨processed, failing, pending, hsplit, hmsg, hfailing, hfull, hpend, ?_⟩
  intro x hx
  have hk : x.file ∈ std.keys fixes := (std.keys_mem fixes x.file).2 ⟨x, hx, rfl⟩
  rw [hsplit] at hk
  simp only [List.mem_append, List.mem_cons] at hk
  rcases hk with h | h | h
  · exact Or.inr (hfull _ h)
  · rw [h]; exact Or.inl hfailing
  · exact Or.inl (hpend _ h)

/-- C5, witness: a two-file batch; `a.cpp` is rewritten, then `b.cpp` is rejected by the
range check. -/
theorem applyFixes_failure_containment_witness :
    ∃ processed failing pending,
      stableStd.keys [farEditB, replAt4] = processed ++ failing :: pending ∧
      ("Out-of-range fix in b.cpp" = "Failed to read " ++ failing ∨
        "Out-of-range fix in b.cpp" = "Out-of-range fix in " ++ failing ∨
        "Out-of-range fix in b.cpp" = "Failed to write " ++ failing) ∧
      (applyFixes stableStd [farEditB, replAt4] true fsTwo).2.files failing
        = fsTwo.files failing ∧
      (∀ f ∈ processed, AllEditsApplied [farEditB, replAt4] f (fsTwo.files f)
        ((applyFixes stableStd [farEditB, replAt4] true fsTwo).2.files f)) ∧
      (∀ f ∈ pending,
        (applyFixes stableStd [farEditB, replAt4] true fsTwo).2.files f = fsTwo.files f) ∧
      (∀ x ∈ [farEditB, replAt4],
        (applyFixes stableStd [farEditB, replAt4] true fsTwo).2.files x.file
          = fsTwo.files x.file ∨
        AllEditsApplied [farEditB, replAt4] x.file (fsTwo.files x.file)
          ((applyFixes stableStd [farEditB, replAt4] true fsTwo).2.files x.file)) :=
  applyFixes_failure_containment stableStd [farEditB, replAt4] true fsTwo
    "Out-of-range fix in b.cpp" (by decide) (by decide) (by decide)

theorem afterBackup_bak (fs : FS) (file : String) (c : Bytes)
    (hread : fs.files file = some c) (hw : fs.writable (file ++ ".bak") = true)
    (hne : fs.canon (file ++ ".bak") ≠ fs.canon file) :
    (afterBackup true fs file).files (file ++ ".bak") = some c := by
  have hne' : fs.canon file ≠ fs.canon (file ++ ".bak") := fun h => hne h.symm
  simp only [afterBackup, if_true, copyFile, hread, hw, Bool.true_and, ne_eq, hne',
    not_false_eq_true, decide_True]
  exact written_files_self _ _ _

/-- Backups of the file loop: on success every processed file has its original bytes at
its backup path, provided the targeted paths and their backup paths name files that are
all different and every backup path can be written. -/
theorem applyLoop_backups (sort : List FixIt → List FixIt) (fixes : List FixIt) :
    ∀ (keys : List String) (fs : FS),
    keys.Nodup →
    (∀ k ∈ keys, ∀ k' ∈ keys, fs.canon k = fs.canon k' → k = k') →
    (∀ k ∈ keys, ∀ k' ∈ keys, fs.canon (k ++ ".bak") ≠ fs.canon k') →
    (∀ k ∈ keys, ∀ k' ∈ keys, fs.canon (k ++ ".bak") = fs.canon (k' ++ ".bak") → k = k') →
    (∀ k ∈ keys, fs.writable (k ++ ".bak") = true) →
    (applyLoop sort fixes true keys fs).1 = Outcome.ok →
    ∀ k ∈ keys, ∃ c, fs.files k = some c ∧
      (applyLoop sort fixes true keys fs).2.files (k ++ ".bak") = some c
  | [], _, _, _, _, _, _, _ => by simp
  | file :: rest, fs, hnd, hinj, hna, hbinj, hbak, hok => by
    have hnd' := List.nodup_cons.1 hnd
    have hne : ∀ f ∈ rest, f ≠ file := fun f hf h => hnd'.1 (by rw [← h]; exact hf)
    have hfm : file ∈ file :: rest := List.mem_cons_self _ _
    rcases applyLoop_cases sort fixes true file rest fs with
      ⟨_, hr⟩ | ⟨c, _, _, hr⟩ | ⟨c, _, _, hr⟩ | ⟨c, c', _, _, _, hr⟩ |
      ⟨c, c', hread, _, _, hr⟩
    · rw [hr] at hok; simp at hok
    · rw [hr] at hok; simp at hok
    · rw [hr] at hok; simp at hok
    · rw [hr] at hok; simp at hok
    · rw [hr] at hok ⊢
      have hkeep : ∀ f ∈ rest,
          (written (afterBackup true fs file) file c').files f = fs.files f := by
        intro f hf
        rw [written_files_of_ne _ _ _ _ (by
          simp only [afterBackup_canon]
          exact fun h => hne f hf (hinj f (List.mem_cons_of_mem _ hf) file hfm h))]
        exact afterBackup_files_of_ne _ _ _ _
          (fun h => hna file hfm f (List.mem_cons_of_mem _ hf) h.symm)
      have ih := applyLoop_backups sort fixes rest
        (written (afterBackup true fs file) file c') hnd'.2
        (fun k hk k' hk' => by
          simpa using hinj k (List.mem_cons_of_mem _ hk) k' (List.mem_cons_of_mem _ hk'))
        (fun k hk k' hk' => by
          simpa using hna k (List.mem_cons_of_mem _ hk) k' (List.mem_cons_of_mem _ hk'))
        (fun k hk k' hk' => by
          simpa using hbinj k (List.mem_cons_of_mem _ hk) k' (List.mem_cons_of_mem _ hk'))
        (fun k hk => by
          simpa using hbak k (List.mem_cons_of_mem _ hk))
        hok
      intro k hk
      rcases List.mem_cons.1 hk with rfl | hk'
      · refine ⟨c, hread, ?_⟩
        rw [applyLoop_frame sort fixes true (k ++ ".bak") rest _ (fun k' hk' => by
            simp only [written_canon, afterBackup_canon]
            exact ⟨hna k hfm k' (List.mem_cons_of_mem _ hk'),
              fun h => hne k' hk' (hbinj k hfm k' (List.mem_cons_of_mem _ hk') h).symm⟩),
          written_files_of_ne _ _ _ _ (by
            simp only [afterBackup_canon]
            exact hna k hfm k hfm)]
        exact afterBackup_bak fs k c hread (hbak k hfm) (hna k hfm k hfm)
      · obtain ⟨d, hd1, hd2⟩ := ih k hk'
        rw [hkeep k hk'] at hd1
        exact ⟨d, hd1, hd2⟩

/-- C6, counterexample: the batch targets `a.bak` and `a` with backups on, `a` is
processed first, and the call returns true; afterwards `a.bak` holds the edited copy of
the bytes of `a`, and the backup of `a.bak` holds the bytes of `a`, not those `a.bak` had
before the call. -/
theorem applyFixes_backup_clobbered :
    (applyFixes stableStd [editABak, editA] true fsBak).1 = Outcome.ok ∧
    fsBak.files "a" = some "AAAA".toList ∧
    fsBak.files "a.bak" = some "BBBB".toList ∧
    (applyFixes stableStd [editABak, editA] true fsBak).2.files ("a" ++ ".bak")
      = some "yAAA".toList ∧
    (applyFixes stableStd [editABak, editA] true fsBak).2.files ("a.bak" ++ ".bak")
      = some "AAAA".toList := by
  refine ⟨by decide, by decide, by decide, by decide, by decide⟩

/-- C6, amended: when the targeted paths and their backup paths name files that are all
different (different targets name different files, no backup path names a targeted file,
different targets have different backup files) and every backup path can be written, a
call with `backup = true` that returns true leaves at `file + ".bak"` exactly the bytes
every targeted file had before the call. -/
theorem applyFixes_backup_roundtrip (std : StdLib) (fixes : List FixIt) (fs : FS)
    (hdistinct : ∀ a ∈ fixes, ∀ b ∈ fixes, fs.canon a.file = fs.canon b.file → a.file = b.file)
    (hnoalias : ∀ a ∈ fixes, ∀ b ∈ fixes, fs.canon (a.file ++ ".bak") ≠ fs.canon b.file)
    (hbackups : ∀ a ∈ fixes, ∀ b ∈ fixes,
      fs.canon (a.file ++ ".bak") = fs.canon (b.file ++ ".bak") → a.file = b.file)
    (hbak : ∀ x ∈ fixes, fs.writable (x.file ++ ".bak") = true)
    (hok : (applyFixes std fixes true fs).1 = Outcome.ok) :
    ∀ x ∈ fixes, ∃ c, fs.files x.file = some c ∧
      (applyFixes std fixes true fs).2.files (x.file ++ ".bak") = some c := by
  intro x hx
  have key : ∀ k ∈ std.keys fixes, ∃ a ∈ fixes, a.file = k :=
    fun k hk => (std.keys_mem fixes k).1 hk
  exact applyLoop_backups std.sort fixes (std.keys fixes) fs (std.keys_nodup fixes)
    (fun k hk k' hk' h => by
      obtain ⟨a, ha, rfl⟩ := key k hk
      obtain ⟨b, hb, rfl⟩ := key k' hk'
      exact hdistinct a ha b hb h)
    (fun k hk k' hk' => by
      obtain ⟨a, ha, rfl⟩ := key k hk
      obtain ⟨b, hb, rfl⟩ := key k' hk'
      exact hnoalias a ha b hb)
    (fun k hk k' hk' h => by
      obtain ⟨a, ha, rfl⟩ := key k hk
      obtain ⟨b, hb, rfl⟩ := key k' hk'
      exact hbackups a ha b hb h)
    (fun k hk => by
      obtain ⟨a, ha, rfl⟩ := key k hk
      exact hbak a ha)
    hok x.file ((std.keys_mem fixes x.file).2 ⟨x, hx, rfl⟩)

/-- C6, witness: a successful two-file batch with backups. -/
theorem applyFixes_backup_roundtrip_witness :
    (∃ c, fsTwo.files replAt4.file = some c ∧
      (applyFixes stableStd [replAt4, editB] true fsTwo).2.files (replAt4.file ++ ".bak")
        = some c) ∧
    (∃ c, fsTwo.files editB.file = some c ∧
      (applyFixes stableStd [replAt4, editB] true fsTwo).2.files (editB.file ++ ".bak")
        = some c) :=
  ⟨applyFixes_backup_roundtrip stableStd [replAt4, editB] fsTwo
      (by decide) (by decide) (by decide) (by decide) (by decide) replAt4 (by decide),
   applyFixes_backup_roundtrip stableStd [replAt4, editB] fsTwo
      (by decide) (by decide) (by decide) (by decide) (by decide) editB (by decide)⟩

/-- C7, the code at the failing input: the backup path cannot be written, so the copy
fails; the call still returns true, the live file holds the edited content and no backup
exists. -/
theorem applyFixes_writes_without_backup :
    fsNoBak.files "a.cpp" = some "int tmp = 0;".toList ∧
    fsNoBak.writable ("a.cpp" ++ ".bak") = false ∧
    (applyFixes stableStd [replAt4] true fsNoBak).1 = Outcome.ok ∧
    (applyFixes stableStd [replAt4] true fsNoBak).2.files "a.cpp"
      = some "int count = 0;".toList ∧
    (applyFixes stableStd [replAt4] true fsNoBak).2.files ("a.cpp" ++ ".bak") = none := by
  refine ⟨by decide, by decide, by decide, by decide, by decide⟩

/-- C8, counterexample: an insertion `(4, 0)` arriving before a replacement `(4, 3)` is
applied first when the sort keeps equivalent elements in place, whereas the specified
order puts the replacement first. -/
theorem applyOrder_ties_keep_arrival_order :
    applyOrder stableStd [insX, replAt4] "a.cpp" = [insX, replAt4] ∧
    specOrder [insX, replAt4] = [replAt4, insX] := by
  refine ⟨by decide, by decide⟩

theorem specOrder_perm (v : List FixIt) : List.Perm (specOrder v) v :=
  List.perm_insertionSort _ v

theorem specOrder_sorted (v : List FixIt) :
    (specOrder v).Pairwise (fun a b => byOffsetDesc b a = false) := by
  have h := List.sorted_insertionSort
    (fun a b : FixIt => b.offset < a.offset ∨ (a.offset = b.offset ∧ b.length ≤ a.length)) v
  refine List.Pairwise.imp ?_ h
  intro a b hab
  rw [byOffsetDesc_eq_false]
  rcases hab with h1 | ⟨h1, _⟩ <;> omega

/-- C8, amended: the order in which the edits of a file are applied is a permutation of
its group in which no edit has a higher offset than an earlier one; when the offsets are
pairwise distinct it is the specified order. Among edits of equal offset the code fixes no
order. -/
theorem applyOrder_descending (std : StdLib) (fixes : List FixIt) (file : String) :
    List.Perm (applyOrder std fixes file) (group fixes file) ∧
    (applyOrder std fixes file).Pairwise (fun a b => b.offset ≤ a.offset) ∧
    (((group fixes file).map FixIt.offset).Nodup →
      applyOrder std fixes file = specOrder (group fixes file)) := by
  refine ⟨std.sort_perm _, ?_, ?_⟩
  · exact List.Pairwise.imp (fun {a b} hab => (byOffsetDesc_eq_false a b).1 hab)
      (std.sort_sorted _)
  · intro hd
    have h1 := descending_unique hd (std.sort_perm (group fixes file))
      (std.sort_sorted (group fixes file))
    have h2 := descending_unique hd (specOrder_perm (group fixes file))
      (specOrder_sorted (group fixes file))
    exact List.reverse_injective (h1.trans h2.symm)

/-- C8, witness: two edits with different offsets. -/
theorem applyOrder_descending_witness :
    List.Perm (applyOrder stableStd [replAt4, replAt6] "a.cpp") (group [replAt4, replAt6] "a.cpp") ∧
    (applyOrder stableStd [replAt4, replAt6] "a.cpp").Pairwise (fun a b => b.offset ≤ a.offset) ∧
    applyOrder stableStd [replAt4, replAt6] "a.cpp" = specOrder (group [replAt4, replAt6] "a.cpp") :=
  ⟨(applyOrder_descending stableStd [replAt4, replAt6] "a.cpp").1,
   (applyOrder_descending stableStd [replAt4, replAt6] "a.cpp").2.1,
   (applyOrder_descending stableStd [replAt4, replAt6] "a.cpp").2.2 (by decide)⟩

/-- C9, the code at the failing input: with `--no-names` the option
`suggestBetterVarNames` is false, and the callback still emits a `WEAK_NAME` issue with a
rename edit for the local variable `int tmp`. -/
theorem weakVarNameRun_ignores_noNames :
    (mainOptions ⟨80, false, false, false, true⟩).suggestBetterVarNames = false ∧
    weakVarNameRun ⟨mainOptions ⟨80, false, false, false, true⟩, some heuristicAi⟩
      (some ⟨true, "tmp".toList, "int".toList, false, false, some "a.cpp", 1, 5, 4, 3⟩) []
      = [⟨"WEAK_NAME", Severity.Info,
          "Variable ".toList ++ [quote] ++ "tmp".toList ++ [quote] ++
            " could be clearer, e.g. ".toList ++ [quote] ++ "count".toList ++ [quote],
          "a.cpp", 1, 5,
          [⟨"a.cpp", 4, 3, "count".toList, "Rename at declaration (MVP)"⟩]⟩] := by
  refine ⟨by decide, by decide⟩

theorem isUpper_iff (c : Char) : c.isUpper = true ↔ 65 ≤ c.toNat ∧ c.toNat ≤ 90 := by
  simp only [Char.isUpper, Bool.and_eq_true, decide_eq_true_eq, ge_iff_le, UInt32.le_def,
    BitVec.le_def]
  exact Iff.rfl

theorem identChar_toLower (c : Char) (h : c.isAlphanum = true) : identChar c.toLower = true := by
  by_cases hu : c.isUpper = true
  · obtain ⟨h1, h2⟩ := (isUpper_iff c).1 hu
    have hl : c.toLower = Char.ofNat (c.toNat + 32) := by
      simp [Char.toLower, h1, h2]
    rw [hl]
    generalize c.toNat = n at h1 h2
    interval_cases n <;> decide
  · have hl : c.toLower = c := by
      have : ¬ (65 ≤ c.toNat ∧ c.toNat ≤ 90) := fun hh => hu ((isUpper_iff c).2 hh)
      simp only [Char.toLower, ge_iff_le]
      rw [if_neg this]
    rw [hl]
    simp only [Char.isAlphanum, Char.isAlpha, Bool.or_eq_true] at h
    simp only [identChar, Bool.or_eq_true]
    rcases h with (h | h) | h
    · exact absurd h hu
    · exact Or.inl (Or.inl h)
    · exact Or.inl (Or.inr h)

theorem sanitizeStep_ident (out : Bytes) (c : Char) (h : ∀ d ∈ out, identChar d = true) :
    ∀ d ∈ sanitizeStep out c, identChar d = true := by
  intro d hd
  unfold sanitizeStep at hd
  split at hd
  · rename_i hc
    rcases List.mem_append.1 hd with hd' | hd'
    · exact h d hd'
    · rw [List.mem_singleton.1 hd']
      exact identChar_toLower c hc
  · split at hd
    · rcases List.mem_append.1 hd with hd' | hd'
      · exact h d hd'
      · rw [List.mem_singleton.1 hd']
        decide
    · exact h d hd

theorem sanitize_ident : ∀ (base out : Bytes), (∀ d ∈ out, identChar d = true) →
    ∀ d ∈ base.foldl sanitizeStep out, identChar d = true
  | [], out, h => by simpa using h
  | c :: base, out, h => by
    rw [List.foldl_cons]
    exact sanitize_ident base (sanitizeStep out c) (sanitizeStep_ident out c h)

theorem validIdentifier_cons (c : Char) (s : Bytes) (h1 : identChar c = true)
    (h2 : c.isDigit = false) (h3 : ∀ d ∈ s, identChar d = true) :
    validIdentifier (c :: s) := by
  refine ⟨by simp, ?_, ?_⟩
  · intro d hd
    rcases List.mem_cons.1 hd with rfl | hd'
    · exact h1
    · exact h3 d hd'
  · intro d hd
    simp only [List.head?_cons, Option.some.injEq] at hd
    rw [← hd]; exact h2

theorem guardFirst_valid (out : Bytes) (h : ∀ d ∈ out, identChar d = true) :
    validIdentifier (guardFirst out) := by
  cases out with
  | nil => exact validIdentifier_cons _ _ (by decide) (by decide) (by simp)
  | cons c rest =>
    cases hc : c.isDigit with
    | true =>
      simp only [guardFirst, hc, if_true]
      exact validIdentifier_cons _ _ (by decide) (by decide) h
    | false =>
      simp only [guardFirst, hc, Bool.false_eq_true, if_false]
      exact validIdentifier_cons _ _ (h c (List.mem_cons_self _ _)) hc
        (fun d hd => h d (List.mem_cons_of_mem _ hd))

theorem uniqueAux_spec (p : Char → Char → Bool) : ∀ (xs : List Char) (kept : Char),
    (uniqueAux p kept xs).head? = some kept ∧
    ∀ d ∈ uniqueAux p kept xs, d = kept ∨ d ∈ xs
  | [], kept => by simp [uniqueAux]
  | x :: xs, kept => by
    unfold uniqueAux
    split
    · obtain ⟨h1, h2⟩ := uniqueAux_spec p xs kept
      refine ⟨h1, fun d hd => ?_⟩
      rcases h2 d hd with h | h
      · exact Or.inl h
      · exact Or.inr (List.mem_cons_of_mem _ h)
    · obtain ⟨_, h2⟩ := uniqueAux_spec p xs x
      refine ⟨rfl, fun d hd => ?_⟩
      rcases List.mem_cons.1 hd with h | h
      · exact Or.inl h
      · rcases h2 d h with h' | h'
        · exact Or.inr (by rw [h']; exact List.mem_cons_self _ _)
        · exact Or.inr (List.mem_cons_of_mem _ h')

theorem unique_valid (p : Char → Char → Bool) (s : Bytes) (h : validIdentifier s) :
    validIdentifier (unique p s) := by
  obtain ⟨hne, hall, hhead⟩ := h
  cases s with
  | nil => exact absurd rfl hne
  | cons a xs =>
    obtain ⟨h1, h2⟩ := uniqueAux_spec p xs a
    have hmem : ∀ d ∈ uniqueAux p a xs, d ∈ a :: xs := fun d hd => by
      rcases h2 d hd with h | h
      · rw [h]; exact List.mem_cons_self _ _
      · exact List.mem_cons_of_mem _ h
    refine ⟨?_, fun d hd => hall d (hmem d hd), ?_⟩
    · intro hnil
      have : (unique p (a :: xs)).head? = some a := h1
      rw [hnil] at this
      simp at this
    · intro d hd
      have : (unique p (a :: xs)).head? = some a := h1
      rw [this] at hd
      exact hhead d (by simpa using hd)

theorem fallbackName_valid (t usageHint : Bytes) : validIdentifier (fallbackName t usageHint) := by
  unfold fallbackName
  exact unique_valid _ _ (guardFirst_valid _ (sanitize_ident _ [] (by simp)))

theorem ite_some_ne_none {c : Prop} [Decidable c] {a : Bytes} {r : Option Bytes}
    (hr : r ≠ none) : (if c then some a else r) ≠ none := by
  split
  · exact Option.some_ne_none a
  · exact hr

theorem suggestIdentifier_none_iff (current typeHint usageHint : Bytes) :
    suggestIdentifier current typeHint usageHint = none ↔ isBad current = false := by
  unfold suggestIdentifier
  cases hb : isBad current with
  | false => simp
  | true =>
    simp only [Bool.not_true, Bool.false_eq_true, if_false, reduceCtorEq, iff_false]
    exact ite_some_ne_none (ite_some_ne_none (ite_some_ne_none (ite_some_ne_none
      (ite_some_ne_none (ite_some_ne_none (ite_some_ne_none (ite_some_ne_none
      (ite_some_ne_none (Option.some_ne_none _)))))))))

theorem ite_some_valid {c : Prop} [Decidable c] {a out : Bytes} {r : Option Bytes}
    (ha : validIdentifier a) (hr : r = some out → validIdentifier out) :
    (if c then some a else r) = some out → validIdentifier out := by
  split
  · intro h
    rw [← Option.some.inj h]
    exact ha
  · exact hr

theorem constant_names_valid :
    validIdentifier "flag".toList ∧ validIdentifier "text".toList ∧
    validIdentifier "values".toList ∧ validIdentifier "lookup".toList ∧
    validIdentifier "items".toList ∧ validIdentifier "count".toList ∧
    validIdentifier "value".toList ∧ validIdentifier "ch".toList := by
  refine ⟨?_, ?_, ?_, ?_, ?_, ?_, ?_, ?_⟩ <;>
    exact validIdentifier_cons _ _ (by decide) (by decide) (by decide)

theorem isLower_iff (c : Char) : c.isLower = true ↔ 97 ≤ c.toNat ∧ c.toNat ≤ 122 := by
  simp only [Char.isLower, Bool.and_eq_true, decide_eq_true_eq, ge_iff_le, UInt32.le_def,
    BitVec.le_def]
  exact Iff.rfl

/-- On a lower-case target, `std::tolower` hits it exactly from the same letter up to
case. -/
theorem toLower_eq_iff_sameLetter (a b : Char) (hb : b.isLower = true) :
    a.toLower = b ↔ sameLetter a b := by
  obtain ⟨hb1, hb2⟩ := (isLower_iff b).1 hb
  by_cases hu : 65 ≤ a.toNat ∧ a.toNat ≤ 90
  · have hl : a.toLower = Char.ofNat (a.toNat + 32) := by
      simp [Char.toLower, hu.1, hu.2]
    rw [hl]
    constructor
    · intro h
      refine Or.inr (Or.inl ⟨hu.1, hu.2, ?_⟩)
      rw [← h]
      obtain ⟨h1, h2⟩ := hu
      generalize a.toNat = n at h1 h2
      interval_cases n <;> decide
    · rintro (h | ⟨_, _, h⟩ | ⟨h, _, _⟩)
      · rw [h] at hu; omega
      · rw [← h, Char.ofNat_toNat]
      · omega
  · have hl : a.toLower = a := by
      simp only [Char.toLower, ge_iff_le]
      rw [if_neg hu]
    rw [hl]
    constructor
    · exact fun h => Or.inl h
    · rintro (h | ⟨h1, h2, _⟩ | ⟨h, _, _⟩)
      · exact h
      · exact absurd ⟨h1, h2⟩ hu
      · omega

/-- Lower-casing a name gives a lower-case word exactly when the name equals the word up
to case. -/
theorem toLower_eq_iff_equalsIgnoringCase : ∀ (s w : Bytes),
    (∀ b ∈ w, b.isLower = true) → (toLower s = w ↔ equalsIgnoringCase s w)
  | [], [], _ => by simp [toLower, equalsIgnoringCase]
  | [], b :: w, _ => by simp [toLower, equalsIgnoringCase]
  | a :: s, [], _ => by simp [toLower, equalsIgnoringCase]
  | a :: s, b :: w, h => by
    have ih := toLower_eq_iff_equalsIgnoringCase s w
      (fun c hc => h c (List.mem_cons_of_mem _ hc))
    have hc := toLower_eq_iff_sameLetter a b (h b (List.mem_cons_self _ _))
    unfold toLower equalsIgnoringCase at *
    rw [List.map_cons, List.cons.injEq, List.forall₂_cons, hc, ih]

/-- C10: every value returned by `HeuristicAi::suggestIdentifier` is a non-empty string of
ASCII lower-case letters, digits and underscores that does not begin with a digit, and no
value is returned exactly when the current name is longer than 2 bytes and does not equal
any of `tmp`, `data`, `foo`, `bar` up to the case of its letters. Lengths count bytes, as
`size()` does. -/
theorem suggestIdentifier_valid (current typeHint usageHint : Bytes) :
    (∀ out, suggestIdentifier current typeHint usageHint = some out → validIdentifier out) ∧
    (suggestIdentifier current typeHint usageHint = none ↔
      (2 < current.length ∧
        ∀ w ∈ ["tmp".toList, "data".toList, "foo".toList, "bar".toList],
          ¬ equalsIgnoringCase current w)) := by
  constructor
  · intro out
    unfold suggestIdentifier
    obtain ⟨h1, h2, h3, h4, h5, h6, h7, h8⟩ := constant_names_valid
    split
    · intro h; cases h
    · refine ite_some_valid h1 (ite_some_valid h2 (ite_some_valid h3 (ite_some_valid h4
        (ite_some_valid h5 (ite_some_valid h6 (ite_some_valid h6 (ite_some_valid h7
        (ite_some_valid h8 ?_))))))))
      intro h
      rw [← Option.some.inj h]
      exact fallbackName_valid _ _
  · rw [suggestIdentifier_none_iff]
    unfold isBad
    rw [Bool.or_eq_false_iff, Bool.or_eq_false_iff, Bool.or_eq_false_iff, Bool.or_eq_false_iff]
    simp only [beq_eq_false_iff_ne, decide_eq_false_iff_not, ne_eq,
      List.forall_mem_cons, List.not_mem_nil, and_true, false_imp_iff, implies_true]
    rw [toLower_eq_iff_equalsIgnoringCase current "tmp".toList (by decide),
      toLower_eq_iff_equalsIgnoringCase current "data".toList (by decide),
      toLower_eq_iff_equalsIgnoringCase current "foo".toList (by decide),
      toLower_eq_iff_equalsIgnoringCase current "bar".toList (by decide)]
    constructor
    · rintro ⟨⟨⟨⟨h1, h2⟩, h3⟩, h4⟩, h5⟩
      exact ⟨by omega, h1, h2, h3, h4⟩
    · rintro ⟨h5, h1, h2, h3, h4⟩
      exact ⟨⟨⟨⟨h1, h2⟩, h3⟩, h4⟩, by omega⟩

/-- C10, witness: the upper-case name `TMP` gets the suggestion `count`, the fallback
branch yields `const_foo_bar_` on a two-part hint, both valid identifiers, and the name
`value` is kept. -/
theorem suggestIdentifier_valid_witness :
    validIdentifier "count".toList ∧ validIdentifier "const_foo_bar_".toList ∧
    (suggestIdentifier "value".toList "Foo<Bar> **".toList "const".toList = none ↔
      (2 < "value".toList.length ∧
        ∀ w ∈ ["tmp".toList, "data".toList, "foo".toList, "bar".toList],
          ¬ equalsIgnoringCase "value".toList w)) :=
  ⟨(suggestIdentifier_valid "TMP".toList "int".toList []).1 "count".toList (by decide),
   (suggestIdentifier_valid "x".toList "Foo<Bar> **".toList "const".toList).1
      "const_foo_bar_".toList (by decide),
   (suggestIdentifier_valid "value".toList "Foo<Bar> **".toList "const".toList).2⟩

/-- When the sum `offset + length` does not wrap, an edit that passes the range check is in
bounds and `replace` cannot throw. -/
theorem rangeCheck_sound_of_no_wrap (f : FixIt) (content : Bytes)
    (h32 : f.offset + f.length < 2 ^ 32) (hpass : rangeCheckFails f content = false) :
    f.offset ≤ content.length ∧ f.offset + f.length ≤ content.length ∧
    replace content f.offset f.length f.replacement
      = some (content.take f.offset ++ f.replacement ++ content.drop (f.offset + f.length)) := by
  unfold rangeCheckFails at hpass
  rw [Nat.mod_eq_of_lt h32] at hpass
  have hle : f.offset + f.length ≤ content.length := by simpa using hpass
  exact ⟨by omega, hle, replace_inRange content f.offset f.length f.replacement hle⟩

/-- A wrapped sum with an offset inside the content: the check passes although the exact
sum exceeds the content length, and `replace` silently clamps the span to the end. -/
theorem wrapLength_clamped :
    wrapLength.fits32 ∧
    rangeCheckFails wrapLength (List.replicate 50 'x') = false ∧
    wrapLength.offset + wrapLength.length > (List.replicate 50 'x').length ∧
    replace (List.replicate 50 'x') wrapLength.offset wrapLength.length wrapLength.replacement
      = some (List.replicate 10 'x' ++ "Z".toList) := by
  refine ⟨by decide, by decide, by decide, by decide⟩

/-- C11, the code at the failing input: both fields of the edit fit in 32 bits, the sum
`4294967295 + 2` wraps to 1, so the range check against the 50-byte content passes; the
offset is beyond the content, `replace` throws, and the exception leaves `applyFixes`. -/
theorem rangeCheck_passes_out_of_bounds :
    wrapEdit.fits32 ∧
    fs50.files "a.cpp" = some (List.replicate 50 'x') ∧
    rangeCheckFails wrapEdit (List.replicate 50 'x') = false ∧
    wrapEdit.offset > (List.replicate 50 'x').length ∧
    wrapEdit.offset + wrapEdit.length > (List.replicate 50 'x').length ∧
    replace (List.replicate 50 'x') wrapEdit.offset wrapEdit.length wrapEdit.replacement
      = none ∧
    applyVec [wrapEdit] (List.replicate 50 'x') = Walk.threw ∧
    (applyFixes stableStd [wrapEdit] true fs50).1 = Outcome.threw := by
  refine ⟨by decide, by decide, by decide, by decide, by decide, by decide, by decide,
    by decide⟩

end aicr
